import Mathlib

/-!
Verification development for the boost.stl_interfaces example container
(`example/static_vector.hpp`) and the reversing adaptor
(`include/boost/stl_interfaces/reverse_iterator.hpp`).

Shallow embedding conventions:
* `static_vector α N` is modelled by the list of its live elements, in slot
  order: the buffer slots `[0, size_)` hold exactly the constructed elements
  and `[size_, N)` hold no constructed object, so the list of live elements
  determines the observable state.  The capacity `N` is a type-level
  parameter, mirroring the C++ template parameter.
* A member function guarded by a debug `assert(...)` is embedded as a
  function into `Option`, with `none` meaning the assertion fires (the
  condition is transcribed verbatim from the source, including its use of
  strict `<`).  Members without an assert are total functions.
* Iterators into the contiguous buffer are modelled as integer offsets from
  `begin()`; `std::prev` is offset minus one, `std::advance(it, n)` is
  offset plus `n`.
-/

/-- The fixed-capacity sequence container of `example/static_vector.hpp`
(lines 21-259): a buffer for up to `N` elements of which the first `size_`
slots are live.  `contents` is the list of live elements in slot order. -/
structure static_vector (α : Type) (N : Nat) where
  contents : List α
  deriving DecidableEq, Repr

namespace static_vector

variable {α : Type} {N : Nat}

/-- Member `size()` (provided via `container_interface` from `begin`/`end`):
the live-element count `size_`. -/
def size (v : static_vector α N) : Nat :=
  v.contents.length

/-- Member `capacity()` (source line 116): always `N`. -/
def capacity (_v : static_vector α N) : Nat :=
  N

/-- Member `max_size()` (source line 115): always `N`. -/
def max_size (_v : static_vector α N) : Nat :=
  N

/-- Member `emplace(pos, args...)` (source lines 154-168).  `pos` is the offset of
the insertion position from `begin()`.  The source distinguishes
`insert_before_end = position < end()`: in that case it saves `last = end()`,
does `emplace_back(std::move(back()))` (appending a copy of the last live
element and bumping `size_`), shifts `[position, last-1)` one slot right with
`std::move_backward`, and placement-constructs the new element in the vacated
slot; the net live contents are `take pos ++ [x] ++ drop pos`.  Otherwise it
placement-constructs at `end()` and bumps `size_`, netting `contents ++ [x]`.
There is no capacity assertion.  Returns the iterator `position`, i.e. the
offset `pos`. -/
def emplace (v : static_vector α N) (pos : Nat) (x : α) :
    static_vector α N × Nat :=
  if pos < size v then
    (⟨v.contents.take pos ++ [x] ++ v.contents.drop pos⟩, pos)
  else
    (⟨v.contents ++ [x]⟩, pos)

/-- Member `emplace_back(args...)` (source lines 149-153):
`*emplace(end(), args...)`. -/
def emplace_back (v : static_vector α N) (x : α) : static_vector α N :=
  (emplace v (size v) x).1

/-- Member `insert(pos, first, last)` (source lines 171-187).  The source range is
modelled as the list `src` of the elements `[first, last)` in order;
`insertions = std::distance(first, last) = src.length`.  The source asserts
`this->size() + insertions < capacity()` (strict `<`, transcribed verbatim),
then default-constructs `insertions` placeholder slots at `end()`
(`std::uninitialized_fill_n`), shifts `[position, end())` right by
`insertions` (`std::move_backward`), and copy-assigns `src` into
`[position, position + insertions)` (`std::copy`); every placeholder is
overwritten either by the shift or by the copy, so the net live contents are
`take pos ++ src ++ drop pos`.  Returns `position`, i.e. the offset `pos`. -/
def insert (v : static_vector α N) (pos : Nat) (src : List α) :
    Option (static_vector α N × Nat) :=
  let insertions := src.length
  if size v + insertions < N then
    some (⟨v.contents.take pos ++ src ++ v.contents.drop pos⟩, pos)
  else
    none

/-- Member `erase(f, last)` (source lines 188-198), with both iterators given as
offsets `f ≤ last` from `begin()`.  `std::move(last, end_, first)` shifts the
surviving suffix left over the hole, the loop destroys the now-excess
trailing elements, and `size_ -= last - first`; the net live contents are
`take f ++ drop last`.  Returns `first`, i.e. the offset `f`.  There is no
assertion. -/
def erase (v : static_vector α N) (f last : Nat) :
    static_vector α N × Nat :=
  (⟨v.contents.take f ++ v.contents.drop last⟩, f)

/-- Member `resize(sz, x)` (source lines 117-125).  The source asserts
`sz < capacity()` (strict `<`, transcribed verbatim); then if `sz < size()`
it erases `[begin()+sz, end())`, if `size() < sz` it fills
`[end(), begin()+sz)` with copies of `x` (`std::uninitialized_fill`), and
finally sets `size_ = sz`.  The net live contents in either case are
`take sz ++ replicate (sz - size) x`. -/
def resize (v : static_vector α N) (sz : Nat) (x : α) :
    Option (static_vector α N) :=
  if sz < N then
    some ⟨v.contents.take sz ++ List.replicate (sz - size v) x⟩
  else
    none

/-- Modelled from the spec: `clear()` is not in `src/` (it is supplied by
`container_interface`, whose header is not part of the given sources); the
spec lists it among the members "entirely derived" from `begin`/`end`/`erase`
and its standard meaning is to destroy all live elements, leaving size 0. -/
def clear (_v : static_vector α N) : static_vector α N :=
  ⟨[]⟩

/-- Modelled from the spec: `assign(first, last)` / `assign(n, x)` are not in
`src/` (they come from `container_interface`); the spec says the construction
variants that delegate to them "establish the invariant `size_ ≤ N`" and that
"constructing with count or range exceeding N is a contract violation", so
assigning a range of length at most `N` replaces the contents with that range
and a longer range is a contract violation (`none`). -/
def assign (_v : static_vector α N) (src : List α) :
    Option (static_vector α N) :=
  if src.length ≤ N then some ⟨src⟩ else none

/-- Modelled from the spec: the unary `resize(n)` overload is not in `src/`
(the source comment at lines 112-114 notes it comes from
`container_interface`); it forwards to the user-defined binary resize with a
value-constructed element, i.e. `resize(n, T())`. -/
def resize1 [Inhabited α] (v : static_vector α N) (sz : Nat) :
    Option (static_vector α N) :=
  resize v sz default

/-- Default constructor (source line 45): `size_ = 0`, no live elements. -/
def mkDefault : static_vector α N :=
  ⟨[]⟩

/-- Count-plus-value constructor (source lines 52-55):
`size_(0)` then `assign(n, x)`, i.e. assign `n` copies of `x`. -/
def mkCount (n : Nat) (x : α) : Option (static_vector α N) :=
  assign (⟨[]⟩ : static_vector α N) (List.replicate n x)

/-- Count constructor (source lines 46-51): `size_(0)` then
`assign(n, T())`. -/
def mkCountDefault [Inhabited α] (n : Nat) : Option (static_vector α N) :=
  mkCount n default

/-- Iterator-range constructor (source lines 56-64), the range modelled as
the list of its elements; the initializer-list constructor (lines 65-67)
delegates to it. -/
def mkRange (src : List α) : Option (static_vector α N) :=
  assign (⟨[]⟩ : static_vector α N) src

/-- Copy constructor (source lines 68-71): `size_(0)` then
`assign(other.begin(), other.end())`. -/
def mkCopy (other : static_vector α N) : Option (static_vector α N) :=
  mkRange other.contents

/-- Move constructor (source lines 72-81): starts empty, then
`emplace_back(std::move(element))` for each of `other`'s elements in order,
then `other.clear()`.  Returns the pair (new container, moved-from
`other`). -/
def mkMove (other : static_vector α N) :
    static_vector α N × static_vector α N :=
  (other.contents.foldl (fun acc x => emplace_back acc x)
    (⟨[]⟩ : static_vector α N),
   clear other)

/-- Copy assignment `operator=` (source lines 82-87) for distinct objects:
`this->clear()` then `this->assign(other.begin(), other.end())`. -/
def copyAssign (v other : static_vector α N) :
    Option (static_vector α N) :=
  assign (clear v) other.contents

/-- Copy assignment `operator=` (source lines 82-87) in the self-assignment
case `a = a`: the source first runs `this->clear()`, after which
`other.begin()`/`other.end()` — iterators into the very same, now empty,
object — delimit an empty range, so the subsequent `assign` copies
nothing. -/
def selfAssign (v : static_vector α N) : Option (static_vector α N) :=
  assign (clear v) (clear v).contents

/-- Move assignment `operator=` (source lines 88-97): `this->clear()`, then
`emplace_back(std::move(element))` for each of `other`'s elements in order,
then `other.clear()`.  Returns the pair (assigned-to object, moved-from
`other`). -/
def moveAssign (v other : static_vector α N) :
    static_vector α N × static_vector α N :=
  (other.contents.foldl (fun acc x => emplace_back acc x) (clear v),
   clear other)

/-- Member `swap(other)` (source lines 199-224), called as `a.swap(b)`.  Steps, in
source order: `short_size, long_size = minmax(a.size(), b.size())`; swap the
overlapping prefixes elementwise; pick `longer`/`shorter` (both start at
`this = a`; if `a.size() < b.size()` then `longer = &b`, else
`shorter = &b`); move the longer container's elements
`[begin()+short_size, end())` into the shorter via `emplace_back`;
`longer->resize(short_size)` — the unary resize, which asserts
`short_size < capacity()`; finally `shorter->size_ = long_size`, which in
this embedding is a no-op because the shorter container's live list already
has length `long_size` after the `emplace_back` loop. -/
def swap [Inhabited α] (a b : static_vector α N) :
    Option (static_vector α N × static_vector α N) :=
  let short_size := min (size a) (size b)
  let a1 : static_vector α N :=
    ⟨b.contents.take short_size ++ a.contents.drop short_size⟩
  let b1 : static_vector α N :=
    ⟨a.contents.take short_size ++ b.contents.drop short_size⟩
  if size a < size b then
    -- longer = b, shorter = a
    let a2 := (b1.contents.drop short_size).foldl
      (fun acc x => emplace_back acc x) a1
    match resize1 b1 short_size with
    | some b2 => some (a2, b2)
    | none => none
  else
    -- longer = a, shorter = b
    let b2 := (a1.contents.drop short_size).foldl
      (fun acc x => emplace_back acc x) b1
    match resize1 a1 short_size with
    | some a2 => some (a2, b2)
    | none => none

/-- The call `std::equal(lhs.begin(), lhs.end(), rhs.begin(), rhs.end())`: the
four-iterator overload, true when both ranges have the same length and are
elementwise equal. -/
def eqList [DecidableEq α] : List α → List α → Bool
  | [], [] => true
  | a :: as, b :: bs => decide (a = b) && eqList as bs
  | _, _ => false

/-- Free function `operator==` (source lines 240-244):
`lhs.size() == rhs.size() && std::equal(lhs.begin(), lhs.end(),
rhs.begin(), rhs.end())`. -/
def eqOp [DecidableEq α] (lhs rhs : static_vector α N) : Bool :=
  decide (size lhs = size rhs) && eqList lhs.contents rhs.contents

/-- The comparison of `operator<` (source lines 245-254) expressed on the
element lists.  `std::mismatch` walks both ranges while both have elements
left and they compare equal; at the stopping point the source returns
`false` when the right range is exhausted, `true` when (only) the left range
is exhausted, and `*iters.first < *iters.second` otherwise. -/
def ltList [DecidableEq α] (lt : α → α → Bool) :
    List α → List α → Bool
  | _, [] => false
  | [], _ :: _ => true
  | a :: as, b :: bs => if a = b then ltList lt as bs else lt a b

/-- Free function `operator<` (source lines 245-254): lexicographic comparison via a
`std::mismatch` scan over the two element ranges. -/
def ltOp [DecidableEq α] (lt : α → α → Bool)
    (lhs rhs : static_vector α N) : Bool :=
  ltList lt lhs.contents rhs.contents

/-- The representation invariant of the container (source lines 256-258 and
spec §3): the live-element count never exceeds the capacity `N`.  In this
embedding the live elements are exactly the entries of `contents`, so the
slots `[size_, N)` holding no constructed object is intrinsic to the
representation. -/
def inv (v : static_vector α N) : Prop :=
  size v ≤ N

instance (v : static_vector α N) : Decidable (inv v) := by
  unfold inv
  infer_instance

end static_vector

/-!
The reversing adaptor of
`include/boost/stl_interfaces/reverse_iterator.hpp` (lines 20-64).  The
wrapped bidirectional iterator is modelled as an integer offset from the
start of the sequence being traversed (a pointer into contiguous storage),
so the underlying primitives are: dereference at offset `i` is the sequence
element at index `i` (out of range is not dereferenceable, `none`);
`std::advance(it, n)` is `i + n`; `std::prev(it)` is `i - 1`.
-/

/-- Dereference of the underlying iterator: the element at offset `i`, when
`0 ≤ i < length`. -/
def derefPtr {α : Type} (l : List α) (i : Int) : Option α :=
  if 0 ≤ i then l[i.toNat]? else none

/-- The step `std::advance(it, n)` on the underlying iterator. -/
def advancePtr (i n : Int) : Int :=
  i + n

/-- The step `std::prev(it)` on the underlying iterator. -/
def prevPtr (i : Int) : Int :=
  i - 1

/-- Struct `reverse_iterator<BidiIter>` (source lines 20-64): holds the single
member `it_`, the wrapped iterator. -/
structure reverse_iterator (β : Type) where
  it_ : β
  deriving DecidableEq, Repr

/-- Function `make_reverse_iterator(it)` (source lines 68-72): wraps `it`. -/
def make_reverse_iterator {β : Type} (it : β) : reverse_iterator β :=
  ⟨it⟩

namespace reverse_iterator

/-- Member `operator*` (source lines 40-45): `*std::prev(it_)`, the element one
step before the wrapped position, for an adaptor whose wrapped iterator is
an offset into the sequence `l`. -/
def star {α : Type} (l : List α) (r : reverse_iterator Int) : Option α :=
  derefPtr l (prevPtr r.it_)

/-- Member `operator+=(n)` (source lines 47-53): `std::advance(it_, -n)`. -/
def plusEq (r : reverse_iterator Int) (n : Int) : reverse_iterator Int :=
  ⟨advancePtr r.it_ (-n)⟩

/-- Increment `++r`, synthesized by `iterator_interface` from `operator+=` as
`r += 1`. -/
def inc (r : reverse_iterator Int) : reverse_iterator Int :=
  plusEq r 1

/-- The step `std::prev` applied to a `reverse_iterator` itself (needed when a
reversing adaptor is wrapped in a second reversing adaptor): one step
backward is `r += -1`, by the adaptor's own `operator+=`. -/
def prevRev (r : reverse_iterator Int) : reverse_iterator Int :=
  plusEq r (-1)

/-- Member `operator*` of a doubly-wrapped adaptor
`reverse_iterator<reverse_iterator<BidiIter>>`: again `*std::prev(it_)`,
where now `it_` is itself a reversing adaptor, so `prev` is `prevRev` and
the inner dereference is `star`. -/
def starStar {α : Type} (l : List α)
    (rr : reverse_iterator (reverse_iterator Int)) : Option α :=
  star l (prevRev rr.it_)

/-- The sequence of values observed by dereferencing a reversing adaptor and
incrementing it, `k` times: the traversal from `rbegin` toward `rend`. -/
def rtraverse {α : Type} (l : List α) :
    Nat → reverse_iterator Int → List (Option α)
  | 0, _ => []
  | k + 1, r => star l r :: rtraverse l k (inc r)

end reverse_iterator

/-!
Shared lemmas about the embedded operations.
-/

section SharedLemmas

variable {α : Type} {N : Nat}

lemma sv_emplace_back_contents (v : static_vector α N) (x : α) :
    (static_vector.emplace_back v x).contents = v.contents ++ [x] := by
  unfold static_vector.emplace_back static_vector.emplace
  rw [if_neg (lt_irrefl _)]

lemma sv_foldl_emplace_back (l : List α) (acc : static_vector α N) :
    (l.foldl (fun a x => static_vector.emplace_back a x) acc).contents
      = acc.contents ++ l := by
  induction l generalizing acc with
  | nil => simp
  | cons y ys ih =>
    simp [List.foldl_cons, ih, sv_emplace_back_contents]

lemma sv_assign_some {v w : static_vector α N} {src : List α}
    (h : static_vector.assign v src = some w) :
    w = ⟨src⟩ ∧ src.length ≤ N := by
  unfold static_vector.assign at h
  split at h
  · exact ⟨(Option.some_injective _ h).symm, by assumption⟩
  · exact absurd h (by simp)

lemma sv_resize_some {v w : static_vector α N} {sz : Nat} {x : α}
    (h : static_vector.resize v sz x = some w) :
    sz < N ∧
      w.contents
        = v.contents.take sz ++ List.replicate (sz - v.size) x := by
  unfold static_vector.resize at h
  split at h
  · refine ⟨by assumption, ?_⟩
    injection h with h
    rw [← h]
  · exact absurd h (by simp)

lemma sv_resize_some_size {v w : static_vector α N} {sz : Nat} {x : α}
    (h : static_vector.resize v sz x = some w) :
    w.size = sz ∧ sz < N := by
  obtain ⟨h1, h2⟩ := sv_resize_some h
  refine ⟨?_, h1⟩
  simp only [static_vector.size, h2, List.length_append, List.length_take,
    List.length_replicate] at *
  omega

lemma sv_emplace_contents (v : static_vector α N) (pos : Nat) (x : α)
    (hpos : pos ≤ v.size) :
    (static_vector.emplace v pos x).1.contents
      = v.contents.take pos ++ [x] ++ v.contents.drop pos := by
  unfold static_vector.emplace
  by_cases h : pos < v.size
  · rw [if_pos h]
  · rw [if_neg h]
    have hl : v.contents.length ≤ pos :=
      not_lt.mp (by simpa [static_vector.size] using h)
    simp [List.take_of_length_le hl, List.drop_eq_nil_of_le hl]

lemma sv_ext {v w : static_vector α N} (h : v.contents = w.contents) :
    v = w := by
  cases v
  cases w
  cases h
  rfl

lemma sv_emplace_size (v : static_vector α N) (pos : Nat) (x : α)
    (hpos : pos ≤ v.size) :
    (static_vector.emplace v pos x).1.size = v.size + 1 := by
  have h := sv_emplace_contents v pos x hpos
  simp only [static_vector.size] at *
  rw [h]
  simp only [List.length_append, List.length_take, List.length_drop,
    List.length_cons, List.length_nil]
  omega

lemma sv_emplace_snd (v : static_vector α N) (pos : Nat) (x : α) :
    (static_vector.emplace v pos x).2 = pos := by
  unfold static_vector.emplace
  split <;> rfl

lemma sv_erase_size (v : static_vector α N) (f last : Nat)
    (hfl : f ≤ last) (hl : last ≤ v.size) :
    (static_vector.erase v f last).1.size = v.size - (last - f) := by
  simp only [static_vector.size] at *
  simp only [static_vector.erase, static_vector.size, List.length_append,
    List.length_take, List.length_drop]
  omega

lemma sv_insert_some {v : static_vector α N} {pos : Nat} {src : List α}
    {out : static_vector α N × Nat}
    (h : static_vector.insert v pos src = some out) :
    v.size + src.length < N ∧
      out.1.contents
        = v.contents.take pos ++ src ++ v.contents.drop pos ∧
      out.2 = pos := by
  unfold static_vector.insert at h
  dsimp only at h
  split at h
  · refine ⟨by assumption, ?_, ?_⟩
    · injection h with h
      rw [← h]
    · injection h with h
      rw [← h]
  · exact absurd h (by simp)

lemma sv_swap_eq [Inhabited α] (a b : static_vector α N) :
    static_vector.swap a b
      = if min a.size b.size < N
          then some ((⟨b.contents⟩ : static_vector α N),
                     (⟨a.contents⟩ : static_vector α N))
          else none := by
  unfold static_vector.swap static_vector.resize1 static_vector.resize
  dsimp only
  simp only [static_vector.size]
  by_cases hab : a.contents.length < b.contents.length
  · have hmin :
        min a.contents.length b.contents.length = a.contents.length :=
      min_eq_left (le_of_lt hab)
    rw [if_pos hab]
    simp only [hmin, List.take_length, List.drop_length, List.append_nil]
    by_cases hsN : a.contents.length < N
    · rw [if_pos hsN, if_pos hsN]
      dsimp only
      refine congrArg some (Prod.ext ?_ ?_)
      · refine sv_ext ?_
        rw [sv_foldl_emplace_back]
        dsimp only
        rw [List.drop_left, List.take_append_drop]
      · refine sv_ext ?_
        dsimp only
        rw [List.take_left]
        have hrep :
            a.contents.length
              - (a.contents ++ b.contents.drop a.contents.length).length
              = 0 := by
          simp only [List.length_append]
          omega
        rw [hrep, List.replicate_zero, List.append_nil]
    · rw [if_neg hsN, if_neg hsN]
  · have hba : b.contents.length ≤ a.contents.length := not_lt.mp hab
    have hmin :
        min a.contents.length b.contents.length = b.contents.length :=
      min_eq_right hba
    rw [if_neg hab]
    simp only [hmin, List.take_length, List.drop_length, List.append_nil]
    by_cases hsN : b.contents.length < N
    · rw [if_pos hsN, if_pos hsN]
      dsimp only
      refine congrArg some (Prod.ext ?_ ?_)
      · refine sv_ext ?_
        dsimp only
        rw [List.take_left]
        have hrep :
            b.contents.length
              - (b.contents ++ a.contents.drop b.contents.length).length
              = 0 := by
          simp only [List.length_append]
          omega
        rw [hrep, List.replicate_zero, List.append_nil]
      · refine sv_ext ?_
        rw [sv_foldl_emplace_back]
        dsimp only
        rw [List.drop_left, List.take_append_drop]
    · rw [if_neg hsN, if_neg hsN]

lemma sv_eqList_iff (as bs : List Int) :
    static_vector.eqList as bs = true ↔ as = bs := by
  induction as generalizing bs with
  | nil => cases bs <;> simp [static_vector.eqList]
  | cons a as ih =>
    cases bs with
    | nil => simp [static_vector.eqList]
    | cons b bs => simp [static_vector.eqList, ih]

lemma sv_eqOp_iff {N : Nat} (a b : static_vector Int N) :
    static_vector.eqOp a b = true ↔ a.contents = b.contents := by
  unfold static_vector.eqOp
  simp only [Bool.and_eq_true, decide_eq_true_eq, sv_eqList_iff,
    static_vector.size]
  constructor
  · exact fun h => h.2
  · exact fun h => ⟨by rw [h], h⟩

lemma sv_ltList_lex (as bs : List Int) :
    static_vector.ltList (fun x y => decide (x < y)) as bs = true ↔
      List.Lex (· < ·) as bs := by
  induction as generalizing bs with
  | nil =>
    cases bs with
    | nil => simp [static_vector.ltList, List.Lex.not_nil_right]
    | cons b bs =>
      simp only [static_vector.ltList, true_iff]
      exact List.Lex.nil
  | cons a as ih =>
    cases bs with
    | nil => simp [static_vector.ltList, List.Lex.not_nil_right]
    | cons b bs =>
      by_cases hab : a = b
      · subst hab
        rw [static_vector.ltList, if_pos rfl, ih bs, List.Lex.cons_iff]
      · rw [static_vector.ltList, if_neg hab]
        simp only [decide_eq_true_eq]
        constructor
        · exact fun h => List.Lex.rel h
        · intro h
          cases h with
          | cons h => exact absurd rfl hab
          | rel h => exact h

end SharedLemmas

/-!
Claim theorems.
-/

/-- C1: the spec claims `insert(begin()+1, {9,9})` on `{1,4}` yields
`{1,9,9,4}` for every capacity at least 4, including capacity exactly 4.
The general step description and the result hold for capacity 5 and more,
but at capacity exactly 4 the source assertion
`this->size() + insertions < capacity()` (strict `<`) fires, because
`2 + 2 < 4` is false even though the resulting size 4 does not exceed the
capacity: the code contradicts the spec's stated contract ("contract
violation only when exceeding capacity") at exactly-full inserts. -/
theorem insert_assert_fires_at_exact_capacity :
    static_vector.insert (⟨[1, 4]⟩ : static_vector Int 4) 1 [9, 9]
        = none ∧
    static_vector.insert (⟨[1, 4]⟩ : static_vector Int 5) 1 [9, 9]
        = some (⟨[1, 9, 9, 4]⟩, 1) ∧
    static_vector.insert (⟨[1, 4]⟩ : static_vector Int 6) 1 [9, 9]
        = some (⟨[1, 9, 9, 4]⟩, 1) := by
  decide

/-- C2: the spec claims `resize(n, value)` is a contract violation exactly
when `n` exceeds the capacity `N`, and succeeds for every `n ≤ N`.  The
shrinking and growing behaviour and the final `size() == n` hold for every
`n < N`, but at `n = N` the source assertion `sz < capacity()` (strict `<`)
fires even though `N` does not exceed the capacity: `resize(4, 7)` on a
capacity-4 container trips the assertion. -/
theorem resize_assert_fires_at_capacity :
    static_vector.resize (⟨[1, 2]⟩ : static_vector Int 4) 4 7 = none ∧
    static_vector.resize (⟨[1, 2]⟩ : static_vector Int 4) 3 7
        = some ⟨[1, 2, 7]⟩ ∧
    (static_vector.resize (⟨[1, 2]⟩ : static_vector Int 4) 3 7).map
        static_vector.size = some 3 ∧
    static_vector.resize (⟨[1, 2, 3]⟩ : static_vector Int 4) 1 7
        = some ⟨[1]⟩ ∧
    (static_vector.resize (⟨[1, 2, 3]⟩ : static_vector Int 4) 1 7).map
        static_vector.size = some 1 := by
  decide

/-- C3: the spec claims `a.swap(b)` exchanges contents and sizes for any two
`static_vector`s whose sizes do not exceed the capacity, and that a double
swap restores both.  That holds whenever at least one of the two containers
is not full, but when both have size equal to the capacity `N` the call
`longer->resize(short_size)` inside `swap` reaches the source assertion
`sz < capacity()` with `sz = N` and fires: swapping two full capacity-2
containers trips the assertion, although the exchange itself would be well
within capacity. -/
theorem swap_assert_fires_when_both_full :
    static_vector.swap (⟨[1, 2]⟩ : static_vector Int 2) ⟨[3, 4]⟩
        = none ∧
    static_vector.swap (⟨[1, 2, 3]⟩ : static_vector Int 3) ⟨[4, 5]⟩
        = some (⟨[4, 5]⟩, ⟨[1, 2, 3]⟩) ∧
    static_vector.swap (⟨[4, 5]⟩ : static_vector Int 3) ⟨[1, 2, 3]⟩
        = some (⟨[1, 2, 3]⟩, ⟨[4, 5]⟩) := by
  decide

/-- C4: `emplace(position, args...)` with `size() < capacity()` and a valid
position inserts the new element at `position` (shifting `[position, end())`
one slot right), increases `size()` by exactly one, and returns the position
of the newly placed element; concretely, `emplace_back(4)` on a capacity-4
container holding `{1,2,3}` yields `{1,2,3,4}` with `size() == 4`. -/
theorem emplace_spec :
    (∀ (N : Nat) (v : static_vector Int N) (pos : Nat) (x : Int),
        pos ≤ v.size → v.size < N →
          (static_vector.emplace v pos x).1.contents
              = v.contents.take pos ++ [x] ++ v.contents.drop pos ∧
          (static_vector.emplace v pos x).1.size = v.size + 1 ∧
          (static_vector.emplace v pos x).2 = pos) ∧
    static_vector.emplace_back (⟨[1, 2, 3]⟩ : static_vector Int 4) 4
        = ⟨[1, 2, 3, 4]⟩ ∧
    (static_vector.emplace_back (⟨[1, 2, 3]⟩ : static_vector Int 4) 4).size
        = 4 := by
  refine ⟨?_, by decide, by decide⟩
  intro N v pos x hpos _
  exact ⟨sv_emplace_contents v pos x hpos, sv_emplace_size v pos x hpos,
    sv_emplace_snd v pos x⟩

/-- Witness for emplace_spec: instantiation at `{1,2,3}` of capacity 4,
emplacing 9 at offset 1. -/
theorem emplace_spec_witness :
    (1 ≤ (⟨[1, 2, 3]⟩ : static_vector Int 4).size ∧
      (⟨[1, 2, 3]⟩ : static_vector Int 4).size < 4) ∧
    ((static_vector.emplace (⟨[1, 2, 3]⟩ : static_vector Int 4) 1 9).1.contents
        = ([1, 2, 3] : List Int).take 1 ++ [9] ++ ([1, 2, 3] : List Int).drop 1 ∧
      (static_vector.emplace (⟨[1, 2, 3]⟩ : static_vector Int 4) 1 9).1.size
        = (⟨[1, 2, 3]⟩ : static_vector Int 4).size + 1 ∧
      (static_vector.emplace (⟨[1, 2, 3]⟩ : static_vector Int 4) 1 9).2 = 1) :=
  ⟨⟨by decide, by decide⟩,
    emplace_spec.1 4 ⟨[1, 2, 3]⟩ 1 9 (by decide) (by decide)⟩

/-- C5: `erase(first, last)` on any valid position pair `first ≤ last`
within the live range shifts the surviving suffix left over the hole,
shrinks the size by exactly `last - first`, and returns the position
`first`; concretely, `erase(begin()+1, begin()+3)` on `{1,2,3,4}` yields
`{1,4}` with size 2. -/
theorem erase_spec :
    (∀ (N : Nat) (v : static_vector Int N) (f l : Nat),
        f ≤ l → l ≤ v.size →
          (static_vector.erase v f l).1.contents
              = v.contents.take f ++ v.contents.drop l ∧
          (static_vector.erase v f l).1.size = v.size - (l - f) ∧
          (static_vector.erase v f l).2 = f) ∧
    static_vector.erase (⟨[1, 2, 3, 4]⟩ : static_vector Int 4) 1 3
        = (⟨[1, 4]⟩, 1) ∧
    (static_vector.erase (⟨[1, 2, 3, 4]⟩ : static_vector Int 4) 1 3).1.size
        = 2 := by
  refine ⟨?_, by decide, by decide⟩
  intro N v f l hfl hl
  exact ⟨rfl, sv_erase_size v f l hfl hl, rfl⟩

/-- Witness for erase_spec: instantiation at `{1,2,3,4}` of capacity 4,
erasing offsets `[1, 3)`. -/
theorem erase_spec_witness :
    ((1 : Nat) ≤ 3 ∧ 3 ≤ (⟨[1, 2, 3, 4]⟩ : static_vector Int 4).size) ∧
    ((static_vector.erase (⟨[1, 2, 3, 4]⟩ : static_vector Int 4) 1 3).1.contents
        = ([1, 2, 3, 4] : List Int).take 1 ++ ([1, 2, 3, 4] : List Int).drop 3 ∧
      (static_vector.erase (⟨[1, 2, 3, 4]⟩ : static_vector Int 4) 1 3).1.size
        = (⟨[1, 2, 3, 4]⟩ : static_vector Int 4).size - (3 - 1) ∧
      (static_vector.erase (⟨[1, 2, 3, 4]⟩ : static_vector Int 4) 1 3).2 = 1) :=
  ⟨⟨by decide, by decide⟩,
    erase_spec.1 4 ⟨[1, 2, 3, 4]⟩ 1 3 (by decide) (by decide)⟩

/-- C10: copy assignment first clears the destination, then assigns from the
source range; because of that order, self-assignment `a = a` reads the
already-cleared object's (empty) range and leaves `a` empty instead of
preserving its contents. -/
theorem copy_assign_spec :
    (∀ (N : Nat) (a other : static_vector Int N),
        other.size ≤ N →
          static_vector.copyAssign a other = some ⟨other.contents⟩) ∧
    (∀ (N : Nat) (v : static_vector Int N),
        static_vector.selfAssign v = some ⟨[]⟩) := by
  constructor
  · intro N a other h
    unfold static_vector.copyAssign static_vector.assign
    exact if_pos h
  · intro N v
    simp [static_vector.selfAssign, static_vector.assign,
      static_vector.clear]

/-- Witness for copy_assign_spec: assigning `{4,5}` over `{1,2,3}` at
capacity 4, and self-assignment of `{1,2,3}`. -/
theorem copy_assign_spec_witness :
    ((⟨[4, 5]⟩ : static_vector Int 4).size ≤ 4 ∧
      static_vector.copyAssign (⟨[1, 2, 3]⟩ : static_vector Int 4) ⟨[4, 5]⟩
        = some ⟨[4, 5]⟩) ∧
    static_vector.selfAssign (⟨[1, 2, 3]⟩ : static_vector Int 4)
        = some ⟨[]⟩ :=
  ⟨⟨by decide, copy_assign_spec.1 4 ⟨[1, 2, 3]⟩ ⟨[4, 5]⟩ (by decide)⟩,
    copy_assign_spec.2 4 ⟨[1, 2, 3]⟩⟩

lemma ri_rtraverse_take (l : List Int) :
    ∀ k : Nat, k ≤ l.length →
      reverse_iterator.rtraverse l k ⟨(k : Int)⟩
        = ((l.take k).reverse).map some := by
  intro k
  induction k with
  | zero => intro _; rfl
  | succ k ih =>
    intro hk
    have hklt : k < l.length := hk
    simp only [reverse_iterator.rtraverse]
    have hstar :
        reverse_iterator.star l ⟨((k + 1 : Nat) : Int)⟩ = some l[k] := by
      show derefPtr l (prevPtr ((k + 1 : Nat) : Int)) = some l[k]
      unfold derefPtr prevPtr
      rw [if_pos (by omega)]
      have hidx : (((k + 1 : Nat) : Int) - 1).toNat = k := by omega
      rw [hidx]
      exact List.getElem?_eq_getElem hklt
    have hinc :
        reverse_iterator.inc ⟨((k + 1 : Nat) : Int)⟩
          = (⟨(k : Int)⟩ : reverse_iterator Int) := by
      unfold reverse_iterator.inc reverse_iterator.plusEq advancePtr
      dsimp only
      congr 1
      omega
    rw [hstar, hinc, ih (Nat.le_of_succ_le hk), List.take_succ,
      List.getElem?_eq_getElem hklt]
    simp only [Option.toList_some, List.reverse_append, List.reverse_cons,
      List.reverse_nil, List.nil_append, List.singleton_append,
      List.map_cons]

/-- C6: dereferencing the reversing adaptor returns the element one step
before the wrapped position (`*reverse(it) == *prev(it)`), never the element
at the wrapped position itself, and an adaptor constructed from the
one-past-the-last position of a non-empty sequence dereferences the last
element. -/
theorem reverse_deref_spec :
    (∀ (l : List Int) (i : Int),
        reverse_iterator.star l ⟨i⟩ = derefPtr l (prevPtr i)) ∧
    (∀ (l : List Int) (i : Int),
        derefPtr l i ≠ derefPtr l (prevPtr i) →
          reverse_iterator.star l ⟨i⟩ ≠ derefPtr l i) ∧
    (∀ (m : List Int) (x : Int),
        reverse_iterator.star (m ++ [x])
            (make_reverse_iterator (((m ++ [x]).length : Nat) : Int))
          = some x) := by
  refine ⟨fun l i => rfl, fun l i h => ?_, fun m x => ?_⟩
  · exact fun hc => h (Eq.symm hc)
  · show derefPtr (m ++ [x]) (prevPtr ((m ++ [x]).length : Int)) = some x
    unfold derefPtr prevPtr
    have hlen : (m ++ [x]).length = m.length + 1 := by
      simp
    rw [if_pos (by rw [hlen]; omega)]
    have hidx : ((((m ++ [x]).length : Nat) : Int) - 1).toNat
        = m.length := by
      rw [hlen]
      omega
    rw [hidx]
    exact List.getElem?_concat_length m x

/-- Witness for reverse_deref_spec: on `[1, 2]` with wrapped offset 2, the
adaptor yields `some 2` (the element before offset 2), not the (absent)
element at offset 2. -/
theorem reverse_deref_spec_witness :
    derefPtr ([1, 2] : List Int) 2 ≠ derefPtr ([1, 2] : List Int) (prevPtr 2) ∧
    reverse_iterator.star ([1, 2] : List Int) ⟨2⟩
      ≠ derefPtr ([1, 2] : List Int) 2 :=
  ⟨by decide, reverse_deref_spec.2.1 [1, 2] 2 (by decide)⟩

/-- C7: traversing from `reverse(S.end())` to `reverse(S.begin())` visits
exactly the elements of `S` in reverse order; wrapping a reversing adaptor
in a second reversing adaptor dereferences the same element as the original
position (double-reversal identity); and advancing a reversing adaptor by
`n` moves the wrapped position by `-n`. -/
theorem reverse_roundtrip_spec :
    (∀ l : List Int,
        reverse_iterator.rtraverse l l.length
            (make_reverse_iterator (l.length : Int))
          = l.reverse.map some) ∧
    (∀ (l : List Int) (i : Int),
        reverse_iterator.starStar l
            (make_reverse_iterator (make_reverse_iterator i))
          = derefPtr l i) ∧
    (∀ (r : reverse_iterator Int) (n : Int),
        (reverse_iterator.plusEq r n).it_ = r.it_ - n) := by
  refine ⟨fun l => ?_, fun l i => ?_, fun r n => ?_⟩
  · have h := ri_rtraverse_take l l.length le_rfl
    rw [List.take_length] at h
    exact h
  · show derefPtr l
        (prevPtr (reverse_iterator.plusEq ⟨i⟩ (-1)).it_) = derefPtr l i
    unfold reverse_iterator.plusEq advancePtr prevPtr
    dsimp only
    congr 1
    omega
  · show advancePtr r.it_ (-n) = r.it_ - n
    unfold advancePtr
    omega

/-- C8: `==` on two `static_vector`s holds exactly when the sizes agree and
the elements are pairwise equal, and `<` is lexicographic comparison with
the three-way tie-break of the `std::mismatch` scan (captured here by the
strict lexicographic order on the element lists: right range exhausted first
gives false, left range exhausted first gives true, otherwise the first
differing pair decides); the four concrete comparisons of the spec hold. -/
theorem relational_spec :
    (∀ (N : Nat) (a b : static_vector Int N),
        static_vector.eqOp a b = true ↔
          a.size = b.size ∧
          ∀ i : Nat, i < a.size → a.contents[i]? = b.contents[i]?) ∧
    (∀ (N : Nat) (a b : static_vector Int N),
        static_vector.ltOp (fun x y => decide (x < y)) a b = true ↔
          List.Lex (· < ·) a.contents b.contents) ∧
    static_vector.ltOp (fun x y => decide (x < y))
        (⟨[1, 2, 3]⟩ : static_vector Int 4) ⟨[1, 2, 4]⟩ = true ∧
    static_vector.ltOp (fun x y => decide (x < y))
        (⟨[1, 2]⟩ : static_vector Int 4) ⟨[1, 2, 3]⟩ = true ∧
    static_vector.ltOp (fun x y => decide (x < y))
        (⟨[1, 2, 3]⟩ : static_vector Int 4) ⟨[1, 2]⟩ = false ∧
    static_vector.eqOp (⟨[1, 2, 3]⟩ : static_vector Int 4) ⟨[1, 2, 3]⟩
        = true := by
  refine ⟨?_, ?_, by decide, by decide, by decide, by decide⟩
  · intro N a b
    rw [sv_eqOp_iff]
    constructor
    · intro h
      refine ⟨by simp [static_vector.size, h], fun i _ => by rw [h]⟩
    · rintro ⟨hlen, hget⟩
      refine List.ext_getElem? fun n => ?_
      by_cases hn : n < a.size
      · exact hget n hn
      · have h1 : a.contents.length ≤ n :=
          not_lt.mp (by simpa [static_vector.size] using hn)
        have h2 : b.contents.length ≤ n := by
          simp only [static_vector.size] at hlen
          omega
        rw [List.getElem?_eq_none h1, List.getElem?_eq_none h2]
  · intro N a b
    exact sv_ltList_lex a.contents b.contents

/-- Witness for relational_spec: instantiation of the `==` characterization
at `{7, 8}` versus `{7, 8}` of capacity 3. -/
theorem relational_spec_witness :
    static_vector.eqOp (⟨[7, 8]⟩ : static_vector Int 3) ⟨[7, 8]⟩ = true ↔
      (⟨[7, 8]⟩ : static_vector Int 3).size
          = (⟨[7, 8]⟩ : static_vector Int 3).size ∧
      ∀ i : Nat, i < (⟨[7, 8]⟩ : static_vector Int 3).size →
        (⟨[7, 8]⟩ : static_vector Int 3).contents[i]?
          = (⟨[7, 8]⟩ : static_vector Int 3).contents[i]? :=
  relational_spec.1 3 ⟨[7, 8]⟩ ⟨[7, 8]⟩

/-- C9: every construction variant and every size-changing member, called
with arguments satisfying its precondition (and, for the assertion-guarded
members, not tripping the assertion, i.e. returning `some`), preserves the
representation invariant `size_ ≤ N`; in this embedding the live elements
are exactly the entries of `contents`, so the invariant is the size
bound. -/
theorem invariant_spec :
    ∀ N : Nat,
      static_vector.inv (static_vector.mkDefault : static_vector Int N) ∧
      (∀ (n : Nat) (x : Int) (v : static_vector Int N),
          static_vector.mkCount n x = some v → static_vector.inv v) ∧
      (∀ (src : List Int) (v : static_vector Int N),
          static_vector.mkRange src = some v → static_vector.inv v) ∧
      (∀ other v : static_vector Int N,
          static_vector.mkCopy other = some v → static_vector.inv v) ∧
      (∀ other : static_vector Int N, static_vector.inv other →
          static_vector.inv (static_vector.mkMove other).1 ∧
          static_vector.inv (static_vector.mkMove other).2) ∧
      (∀ a other v : static_vector Int N,
          static_vector.copyAssign a other = some v →
          static_vector.inv v) ∧
      (∀ a other : static_vector Int N, static_vector.inv other →
          static_vector.inv (static_vector.moveAssign a other).1 ∧
          static_vector.inv (static_vector.moveAssign a other).2) ∧
      (∀ v : static_vector Int N,
          static_vector.inv (static_vector.clear v)) ∧
      (∀ (v : static_vector Int N) (pos : Nat) (x : Int),
          v.size < N → pos ≤ v.size →
          static_vector.inv (static_vector.emplace v pos x).1) ∧
      (∀ (v : static_vector Int N) (x : Int),
          v.size < N →
          static_vector.inv (static_vector.emplace_back v x)) ∧
      (∀ (v : static_vector Int N) (pos : Nat) (src : List Int)
          (out : static_vector Int N × Nat),
          static_vector.insert v pos src = some out →
          static_vector.inv out.1) ∧
      (∀ (v : static_vector Int N) (f l : Nat),
          static_vector.inv v → f ≤ l →
          static_vector.inv (static_vector.erase v f l).1) ∧
      (∀ (v : static_vector Int N) (sz : Nat) (x : Int)
          (w : static_vector Int N),
          static_vector.resize v sz x = some w → static_vector.inv w) ∧
      (∀ (a b : static_vector Int N)
          (out : static_vector Int N × static_vector Int N),
          static_vector.inv a → static_vector.inv b →
          static_vector.swap a b = some out →
          static_vector.inv out.1 ∧ static_vector.inv out.2) := by
  intro N
  refine ⟨?_, ?_, ?_, ?_, ?_, ?_, ?_, ?_, ?_, ?_, ?_, ?_, ?_, ?_⟩
  · simp [static_vector.inv, static_vector.mkDefault, static_vector.size]
  · intro n x v h
    unfold static_vector.mkCount at h
    obtain ⟨hv, hlen⟩ := sv_assign_some h
    subst hv
    simpa [static_vector.inv, static_vector.size] using hlen
  · intro src v h
    unfold static_vector.mkRange at h
    obtain ⟨hv, hlen⟩ := sv_assign_some h
    subst hv
    simpa [static_vector.inv, static_vector.size] using hlen
  · intro other v h
    unfold static_vector.mkCopy static_vector.mkRange at h
    obtain ⟨hv, hlen⟩ := sv_assign_some h
    subst hv
    simpa [static_vector.inv, static_vector.size] using hlen
  · intro other hother
    simp only [static_vector.inv, static_vector.size] at hother ⊢
    unfold static_vector.mkMove
    dsimp only
    rw [sv_foldl_emplace_back]
    simp only [static_vector.clear, List.nil_append, List.length_nil]
    exact ⟨hother, Nat.zero_le N⟩
  · intro a other v h
    unfold static_vector.copyAssign at h
    obtain ⟨hv, hlen⟩ := sv_assign_some h
    subst hv
    simpa [static_vector.inv, static_vector.size] using hlen
  · intro a other hother
    simp only [static_vector.inv, static_vector.size] at hother ⊢
    unfold static_vector.moveAssign
    dsimp only
    rw [sv_foldl_emplace_back]
    simp only [static_vector.clear, List.nil_append, List.length_nil]
    exact ⟨hother, Nat.zero_le N⟩
  · intro v
    simp [static_vector.inv, static_vector.clear, static_vector.size]
  · intro v pos x hN hpos
    unfold static_vector.inv
    rw [sv_emplace_size v pos x hpos]
    omega
  · intro v x hN
    unfold static_vector.inv static_vector.emplace_back
    rw [sv_emplace_size v v.size x le_rfl]
    omega
  · intro v pos src out h
    obtain ⟨hlt, hcont, _⟩ := sv_insert_some h
    simp only [static_vector.inv, static_vector.size] at hlt ⊢
    rw [hcont]
    simp only [List.length_append, List.length_take, List.length_drop]
    omega
  · intro v f l hv hfl
    simp only [static_vector.inv, static_vector.size] at hv ⊢
    unfold static_vector.erase
    dsimp only
    simp only [List.length_append, List.length_take, List.length_drop]
    omega
  · intro v sz x w h
    obtain ⟨hsz, hN⟩ := sv_resize_some_size h
    unfold static_vector.inv
    rw [hsz]
    omega
  · intro a b out ha hb h
    rw [sv_swap_eq] at h
    simp only [static_vector.inv, static_vector.size] at ha hb ⊢
    split at h
    · injection h with h
      rw [← h]
      exact ⟨hb, ha⟩
    · exact absurd h (by simp)

/-- Witness for invariant_spec: the emplace component at `{1, 2}` of
capacity 4, emplacing 9 at offset 1. -/
theorem invariant_spec_witness :
    ((⟨[1, 2]⟩ : static_vector Int 4).size < 4 ∧
      1 ≤ (⟨[1, 2]⟩ : static_vector Int 4).size) ∧
    static_vector.inv
      (static_vector.emplace (⟨[1, 2]⟩ : static_vector Int 4) 1 9).1 :=
  ⟨⟨by decide, by decide⟩,
    (invariant_spec 4).2.2.2.2.2.2.2.2.1 ⟨[1, 2]⟩ 1 9 (by decide)
      (by decide)⟩
